import Mathlib

/-!
Verification of the detection engine of the ChaChing browser extension.

Strings from the page are modelled as `List Char` (`JStr`).  Pure string
operations of the source (`normalizeBrand`, `String.prototype.trim`,
`toLowerCase`, substring tests) are translated character-by-character; the
DOM itself is out of the shallow embedding, so each DOM-reading detector is
represented by the value it extracts (booleans for the PDP signals, the
extracted title string, the list of computed z-index values, and so on).
-/

/-- JavaScript strings, modelled as lists of characters. -/
abbrev JStr := List Char

/-- ASCII case mapping of `String.prototype.toLowerCase` (the catalog names
and the characters the detector compares are in the Basic Latin range, where
the JS mapping is exactly the ASCII one). -/
def jsToLower (c : Char) : Char :=
  if 65 ≤ c.toNat ∧ c.toNat ≤ 90 then Char.ofNat (c.toNat + 32) else c

/-- Whitespace recognised by `String.prototype.trim`. -/
def isJsSpace (c : Char) : Bool :=
  c == ' ' || c == '\t' || c == '\n' || c == '\r' || c == '\x0b' || c == '\x0c' || c == '\xa0'

/-- `String.prototype.trim`: drop whitespace from both ends. -/
def jsTrim (s : JStr) : JStr :=
  ((s.dropWhile isJsSpace).reverse.dropWhile isJsSpace).reverse

/-- The character class removed by `normalizeBrand`'s
`.replace(/®|™|©/g, '')`. -/
def notTrademark (c : Char) : Bool :=
  !(c == '®' || c == '™' || c == '©')

/-- `ChachingUtils.normalizeBrand` (src/shared/utils.js): falsy input gives
the empty string; otherwise lower-case, strip the trademark glyphs, trim. -/
def normalizeBrand (s : JStr) : JStr :=
  if s = [] then [] else jsTrim ((s.map jsToLower).filter notTrademark)

/-- One entry of the supported-brand catalog (src/content/brands.js):
a normalized name and a cashback percentage. -/
structure BrandRecord where
  name : JStr
  cashback : Nat
deriving DecidableEq, Repr

/-- Number of candidates whose normalization contains `brandName` as a
substring — the vote count accumulated for one supported brand by the inner
loop of `determineBestBrandByVotes`. -/
def countVotes (candidates : List JStr) (brandName : JStr) : Nat :=
  (candidates.filter (fun c => decide (brandName <:+: normalizeBrand c))).length

/-- The `maxVotes`/`winningBrandName` scan of `determineBestBrandByVotes`:
walk the tallied `(name, votes)` entries in insertion order, replacing the
leader only on a strictly greater count. -/
def voteLoop : List (JStr × Nat) → Nat → Option JStr → Option JStr
  | [], _, w => w
  | p :: rest, m, w =>
    if m < p.2 then voteLoop rest p.2 (some p.1) else voteLoop rest m w

/-- `ProductDetector.determineBestBrandByVotes` (src/content/detector.js).
The catalog argument stands for `SUPPORTED_BRANDS_MAP`: the Map's entries in
insertion order (a JS Map has unique keys, so `.get` of the winning key is
the first — and only — record carrying that name).  The vote-count Map keeps
only brands with at least one vote, in first-vote order, which (the outer
loop being over the catalog) is catalog order. -/
def determineBestBrandByVotes (catalog : List BrandRecord) (candidates : List JStr) :
    Option BrandRecord :=
  if candidates.length = 0 then none
  else
    let tallies :=
      (catalog.map (fun r => (r.name, countVotes candidates r.name))).filter
        (fun p => decide (0 < p.2))
    if tallies.length = 0 then none
    else
      match voteLoop tallies 0 none with
      | some winner => catalog.find? (fun r => r.name == winner)
      | none => none

/-- The word characters of the JS regex class `\w` (`[A-Za-z0-9_]`). -/
def isWordChar (c : Char) : Bool :=
  (decide ('a' ≤ c) && decide (c ≤ 'z')) ||
  (decide ('A' ≤ c) && decide (c ≤ 'Z')) ||
  (decide ('0' ≤ c) && decide (c ≤ '9')) || c == '_'

/-- Whether position `i` of `s` holds a word character (out of range counts
as a non-word character, as for the JS `\b` assertion at a string edge). -/
def wordCharAt (s : JStr) (i : Nat) : Bool :=
  match s.get? i with
  | some c => isWordChar c
  | none => false

/-- The JS `\b` assertion at position `i` of `s`: word-character-ness
changes between the previous character and the current one. -/
def wordBoundaryAt (s : JStr) (i : Nat) : Bool :=
  (if i = 0 then false else wordCharAt s (i - 1)) != wordCharAt s i

/-- A whole-word occurrence of the literal `n` at position `i` of `s` —
what the regex `\bn\b` built by the title strategy accepts at `i`
(the catalog names contain no regex metacharacters). -/
def wordMatchAt (n s : JStr) (i : Nat) : Bool :=
  decide (n <+: s.drop i) && wordBoundaryAt s i && wordBoundaryAt s (i + n.length)

/-- Index of the leftmost whole-word occurrence of `n` in `s` — the
`match.index` of the title strategy's regex, `none` when `.test` fails. -/
def findWholeWord (n s : JStr) : Option Nat :=
  (List.range (s.length + 1)).find? (fun i => wordMatchAt n s i)

/-- Strategy 2 of `findAllBrandCandidates`, for a single catalog name: test
`\bname\b` case-insensitively against the title and, on a match, capture the
original-cased substring of the title at the match. -/
def titleCandidateFor (title : JStr) (n : JStr) : Option JStr :=
  match findWholeWord n (title.map jsToLower) with
  | some i => some ((title.drop i).take n.length)
  | none => none

/-- Strategy 2 of `findAllBrandCandidates` over the whole
`SUPPORTED_BRANDS_ARRAY`: run only when the extracted title is non-empty,
and append the captured candidates in catalog order. -/
def titleCandidates (names : List JStr) (title : JStr) : List JStr :=
  if title = [] then [] else names.filterMap (titleCandidateFor title)

/-- The nine boolean PDP signals of `detectProductPage` (src/js/content.js).
Each field is the outcome of one DOM detector (`detectPrice().found`,
`detectActionButtons()`, truthiness of `extractProductTitle()`,
`detectProductImages().length > 0`, `detectProductMetadata()`,
`detectReviews()`, `detectStructuredData().found`,
`detectProductUrlPattern()`, `detectBreadcrumbs()`); the detectors read the
DOM, which sits outside the embedding, so their boolean results are the
model's inputs. -/
structure PdpSignals where
  price : Bool
  actionButton : Bool
  productTitle : Bool
  productImage : Bool
  metadata : Bool
  reviews : Bool
  structuredData : Bool
  urlPattern : Bool
  breadcrumb : Bool
deriving DecidableEq

/-- The signal record is just a 9-tuple of booleans. -/
def pdpSignalsEquiv :
    (Bool × Bool × Bool × Bool × Bool × Bool × Bool × Bool × Bool) ≃ PdpSignals where
  toFun x := ⟨x.1, x.2.1, x.2.2.1, x.2.2.2.1, x.2.2.2.2.1, x.2.2.2.2.2.1,
    x.2.2.2.2.2.2.1, x.2.2.2.2.2.2.2.1, x.2.2.2.2.2.2.2.2⟩
  invFun s := ⟨s.price, s.actionButton, s.productTitle, s.productImage,
    s.metadata, s.reviews, s.structuredData, s.urlPattern, s.breadcrumb⟩
  left_inv := fun _ => rfl
  right_inv := fun _ => rfl

instance : Fintype PdpSignals := Fintype.ofEquiv _ pdpSignalsEquiv

/-- The score accumulation of `detectProductPage` (src/js/content.js):
starting from 0, each present signal adds its fixed weight from
`this.weights`, in the order the source checks them. -/
def detectProductPageScore (s : PdpSignals) : Nat :=
  let score := 0
  let score := if s.price then score + 25 else score
  let score := if s.actionButton then score + 20 else score
  let score := if s.productTitle then score + 15 else score
  let score := if s.productImage then score + 10 else score
  let score := if s.metadata then score + 5 else score
  let score := if s.reviews then score + 10 else score
  let score := if s.structuredData then score + 15 else score
  let score := if s.urlPattern then score + 5 else score
  let score := if s.breadcrumb then score + 5 else score
  score

/-- The signal/weight table of `this.weights` (src/js/content.js), paired
with each signal's presence flag. -/
def pdpWeightTable (s : PdpSignals) : List (Bool × Nat) :=
  [(s.price, 25), (s.actionButton, 20), (s.productTitle, 15),
   (s.productImage, 10), (s.metadata, 5), (s.reviews, 10),
   (s.structuredData, 15), (s.urlPattern, 5), (s.breadcrumb, 5)]

/-- Sum of the fixed weights of the present signals. -/
def pdpWeightSum (s : PdpSignals) : Nat :=
  (((pdpWeightTable s).filter (fun p => p.1)).map (fun p => p.2)).sum

def setPrice (s : PdpSignals) : PdpSignals :=
  ⟨true, s.actionButton, s.productTitle, s.productImage, s.metadata,
   s.reviews, s.structuredData, s.urlPattern, s.breadcrumb⟩

def setActionButton (s : PdpSignals) : PdpSignals :=
  ⟨s.price, true, s.productTitle, s.productImage, s.metadata,
   s.reviews, s.structuredData, s.urlPattern, s.breadcrumb⟩

def setProductTitle (s : PdpSignals) : PdpSignals :=
  ⟨s.price, s.actionButton, true, s.productImage, s.metadata,
   s.reviews, s.structuredData, s.urlPattern, s.breadcrumb⟩

def setProductImage (s : PdpSignals) : PdpSignals :=
  ⟨s.price, s.actionButton, s.productTitle, true, s.metadata,
   s.reviews, s.structuredData, s.urlPattern, s.breadcrumb⟩

def setMetadata (s : PdpSignals) : PdpSignals :=
  ⟨s.price, s.actionButton, s.productTitle, s.productImage, true,
   s.reviews, s.structuredData, s.urlPattern, s.breadcrumb⟩

def setReviews (s : PdpSignals) : PdpSignals :=
  ⟨s.price, s.actionButton, s.productTitle, s.productImage, s.metadata,
   true, s.structuredData, s.urlPattern, s.breadcrumb⟩

def setStructuredData (s : PdpSignals) : PdpSignals :=
  ⟨s.price, s.actionButton, s.productTitle, s.productImage, s.metadata,
   s.reviews, true, s.urlPattern, s.breadcrumb⟩

def setUrlPattern (s : PdpSignals) : PdpSignals :=
  ⟨s.price, s.actionButton, s.productTitle, s.productImage, s.metadata,
   s.reviews, s.structuredData, true, s.breadcrumb⟩

def setBreadcrumb (s : PdpSignals) : PdpSignals :=
  ⟨s.price, s.actionButton, s.productTitle, s.productImage, s.metadata,
   s.reviews, s.structuredData, s.urlPattern, true⟩

/-- The inner maximum scan of `getHighestZIndex` (src/content/main.js):
fold the parsed computed z-index of every observed element (elements whose
computed z-index does not parse to a number, and the notification's own
subtree, contribute nothing and are omitted from the input list) through
`if (zIndex > highestIndex) highestIndex = zIndex`, starting from 0. -/
def highestObserved (zs : List Int) : Int :=
  zs.foldl (fun acc z => if z > acc then z else acc) 0

/-- `getHighestZIndex` (src/content/main.js): the observed maximum, floored
at the sentinel `2147483640` as a final safety net. -/
def getHighestZIndex (zs : List Int) : Int :=
  max (highestObserved zs) 2147483640

/-- The `setZIndex` closure of `showNotification` (src/content/main.js):
raise the notification's z-index to `highestZ + 1` only when that is
strictly greater than its current value (a fresh notification has no
numeric z-index yet, so `parseInt(...) || 0` starts it at 0). -/
def setZIndex (currentZ : Int) (zs : List Int) : Int :=
  let highestZ := getHighestZIndex zs
  if highestZ + 1 > currentZ then highestZ + 1 else currentZ

/-- The durable dismissal store (`chrome.storage.local`), restricted to the
dismissal records: a map from storage key to the stored timestamp in
milliseconds (the source stores an ISO-8601 string and reads it back with
`new Date(...).getTime()`; the round-trip is the identity on the instant). -/
def DismissalStore := JStr → Option Nat

/-- A storage with no dismissal records. -/
def emptyStore : DismissalStore := fun _ => none

/-- The storage key `dismissal_${window.location.href}` used by both
`showNotification` and `saveDismissalTime` (src/content/main.js). -/
def dismissalKey (url : JStr) : JStr := "dismissal_".toList ++ url

/-- `saveDismissalTime` (src/content/main.js): write the dismissal
timestamp under the key derived from the exact current URL. -/
def saveDismissalTime (store : DismissalStore) (url : JStr) (t : Nat) : DismissalStore :=
  fun k => if k = dismissalKey url then some t else store k

/-- Fifteen minutes in milliseconds, the cooldown of `showNotification`. -/
def fifteenMinutes : Nat := 15 * 60 * 1000

/-- The early-return guard of `showNotification` (src/content/main.js):
a record exists for the exact current URL and
`currentTime - dismissalTime < fifteenMinutes` (JS number subtraction,
hence computed in `Int`). -/
def dismissedRecently (store : DismissalStore) (url : JStr) (now : Nat) : Bool :=
  match store (dismissalKey url) with
  | some t => decide ((now : Int) - (t : Int) < (fifteenMinutes : Int))
  | none => false

/-- `String.prototype.split('\n')` on a list of characters. -/
def splitOnNewline : JStr → List JStr
  | [] => [[]]
  | c :: rest =>
    match splitOnNewline rest with
    | [] => [[]]
    | g :: gs => if c = '\n' then [] :: g :: gs else (c :: g) :: gs

/-- One `new Map(...)` insertion: a later entry with an existing key
overwrites that key's record in place, otherwise it is appended. -/
def mapInsert (m : List BrandRecord) (b : BrandRecord) : List BrandRecord :=
  if m.any (fun r => r.name == b.name) then
    m.map (fun r => if r.name == b.name then b else r)
  else m ++ [b]

/-- `new Map(list.map(b => [b.name, b]))`: entries in first-insertion
order with unique keys, last write winning. -/
def mkBrandMap (l : List BrandRecord) : List BrandRecord := l.foldl mapInsert []

/-- The pair (`SUPPORTED_BRANDS_MAP`, `SUPPORTED_BRANDS_ARRAY`) produced by
`loadBrands` (src/content/brands.js). -/
structure BrandCatalogState where
  entries : List BrandRecord
  names : List JStr
deriving DecidableEq, Repr

/-- The CSV line clean-up of `loadBrands`:
`name.trim().replace(/"/g, '')`. -/
def parseBrandLine (line : JStr) : JStr :=
  (jsTrim line).filter (fun c => !(c == '"'))

/-- `loadBrands` (src/content/brands.js).  The argument is the result of
`fetch(...)` followed by `response.text()`: `Except.error ()` is the
rejection path (source unreachable, or its bytes undecodable), which the
`catch` block turns into an empty map and an empty name array; an `Except.ok`
text is parsed — skip the header line, clean each line, drop empty lines,
attach the static cashback 33, normalize, and build the Map and the array. -/
def loadBrands (fetched : Except Unit JStr) : BrandCatalogState :=
  match fetched with
  | .error _ => ⟨[], []⟩
  | .ok csvText =>
    let brandNames :=
      (((splitOnNewline csvText).drop 1).map parseBrandLine).filter
        (fun l => decide (l ≠ []))
    let brands := brandNames.map (fun n => BrandRecord.mk n 33)
    let normalizedBrands := brands.map (fun b => BrandRecord.mk (normalizeBrand b.name) b.cashback)
    ⟨mkBrandMap normalizedBrands, normalizedBrands.map (fun b => b.name)⟩

/-- The static brand list of src/content/brands.js (the compiled-in variant
of the catalog). -/
def staticBrands : List BrandRecord :=
  [⟨"ruggable".toList, 10⟩, ⟨"creed".toList, 15⟩, ⟨"nike".toList, 12⟩,
   ⟨"adidas".toList, 11⟩, ⟨"ugg".toList, 9⟩, ⟨"lululemon".toList, 8⟩,
   ⟨"levis".toList, 7⟩, ⟨"samsung".toList, 18⟩, ⟨"apple".toList, 5⟩,
   ⟨"sony".toList, 14⟩, ⟨"lego".toList, 6⟩, ⟨"patagonia".toList, 13⟩,
   ⟨"the north face".toList, 10⟩, ⟨"coach".toList, 20⟩,
   ⟨"michael kors".toList, 22⟩, ⟨"kate spade".toList, 25⟩,
   ⟨"tory burch".toList, 23⟩, ⟨"gucci".toList, 30⟩,
   ⟨"louis vuitton".toList, 4⟩, ⟨"prada".toList, 7⟩, ⟨"chanel".toList, 5⟩]

/-- `SUPPORTED_BRANDS_MAP` of the static variant: the brand list with
normalized names, loaded into a Map. -/
def SUPPORTED_BRANDS_MAP : List BrandRecord :=
  mkBrandMap (staticBrands.map (fun b => BrandRecord.mk (normalizeBrand b.name) b.cashback))

/-- `SUPPORTED_BRANDS_ARRAY` of the static variant. -/
def SUPPORTED_BRANDS_ARRAY : List JStr :=
  (staticBrands.map (fun b => BrandRecord.mk (normalizeBrand b.name) b.cashback)).map
    (fun b => b.name)

set_option maxRecDepth 8192 in
/-- C2: the confidence score computed by `detectProductPage` is exactly the
sum of the fixed weights (price 25, actionButton 20, productTitle 15,
productImage 10, metadata 5, reviews 10, structuredData 15, urlPattern 5,
breadcrumb 5) of the signals that are present; making any one additional
signal true never decreases the score; and a page with exactly price,
action button and title present scores 25 + 20 + 15 = 60. -/
theorem detectProductPageScore_additive_and_monotone :
    (∀ s : PdpSignals, detectProductPageScore s = pdpWeightSum s) ∧
    (∀ s : PdpSignals,
      detectProductPageScore s ≤ detectProductPageScore (setPrice s) ∧
      detectProductPageScore s ≤ detectProductPageScore (setActionButton s) ∧
      detectProductPageScore s ≤ detectProductPageScore (setProductTitle s) ∧
      detectProductPageScore s ≤ detectProductPageScore (setProductImage s) ∧
      detectProductPageScore s ≤ detectProductPageScore (setMetadata s) ∧
      detectProductPageScore s ≤ detectProductPageScore (setReviews s) ∧
      detectProductPageScore s ≤ detectProductPageScore (setStructuredData s) ∧
      detectProductPageScore s ≤ detectProductPageScore (setUrlPattern s) ∧
      detectProductPageScore s ≤ detectProductPageScore (setBreadcrumb s)) ∧
    detectProductPageScore ⟨true, true, true, false, false, false, false, false, false⟩ = 60 := by
  refine ⟨by decide, by decide, by decide⟩

/-- C5: a dismissal record written at time `T` for URL `U` suppresses the
notification for the exact same URL at every time earlier than
`T + fifteenMinutes`, does not suppress it at or after `T + fifteenMinutes`,
and never suppresses any different URL (the storage key is derived from the
full exact URL, so a write for `U` leaves every other URL's suppression
state untouched). -/
theorem dismissal_cooldown_correct :
    (∀ (store : DismissalStore) (url : JStr) (T now : Nat),
      now < T + fifteenMinutes →
      dismissedRecently (saveDismissalTime store url T) url now = true) ∧
    (∀ (store : DismissalStore) (url : JStr) (T now : Nat),
      T + fifteenMinutes ≤ now →
      dismissedRecently (saveDismissalTime store url T) url now = false) ∧
    (∀ (store : DismissalStore) (url url2 : JStr) (T now : Nat),
      url2 ≠ url →
      dismissedRecently (saveDismissalTime store url T) url2 now =
        dismissedRecently store url2 now) := by
  have hkey : ∀ url url2 : JStr, url2 ≠ url → dismissalKey url2 ≠ dismissalKey url := by
    intro url url2 hne heq
    exact hne (List.append_cancel_left heq)
  have hread : ∀ (store : DismissalStore) (url : JStr) (T : Nat),
      (saveDismissalTime store url T) (dismissalKey url) = some T := by
    intro store url T
    simp [saveDismissalTime]
  refine ⟨?_, ?_, ?_⟩
  · intro store url T now h
    unfold dismissedRecently
    rw [hread store url T]
    simp only [decide_eq_true_eq]
    omega
  · intro store url T now h
    unfold dismissedRecently
    rw [hread store url T]
    simp only [decide_eq_false_iff_not]
    omega
  · intro store url url2 T now hne
    unfold dismissedRecently
    have : (saveDismissalTime store url T) (dismissalKey url2) = store (dismissalKey url2) := by
      simp [saveDismissalTime, hkey url url2 hne]
    rw [this]

/-- C5 witness: the cooldown evaluated on a concrete store and URLs. -/
theorem dismissal_cooldown_correct_witness :
    dismissedRecently
      (saveDismissalTime emptyStore "https://shop.example/a".toList 1000)
      "https://shop.example/a".toList 500000 = true ∧
    dismissedRecently
      (saveDismissalTime emptyStore "https://shop.example/a".toList 1000)
      "https://shop.example/a".toList 901000 = false ∧
    dismissedRecently
      (saveDismissalTime emptyStore "https://shop.example/a".toList 1000)
      "https://shop.example/b".toList 500000 =
      dismissedRecently emptyStore "https://shop.example/b".toList 500000 :=
  ⟨dismissal_cooldown_correct.1 emptyStore "https://shop.example/a".toList 1000 500000
      (by decide),
   dismissal_cooldown_correct.2.1 emptyStore "https://shop.example/a".toList 1000 901000
      (by decide),
   dismissal_cooldown_correct.2.2 emptyStore "https://shop.example/a".toList
      "https://shop.example/b".toList 1000 500000 (by decide)⟩

lemma foldlMax_init_le (zs : List Int) (a : Int) :
    a ≤ zs.foldl (fun acc z => if z > acc then z else acc) a := by
  induction zs generalizing a with
  | nil => exact le_refl a
  | cons z zs ih =>
    refine le_trans ?_ (ih (if z > a then z else a))
    split <;> omega

lemma foldlMax_mem_le (zs : List Int) (a z : Int) (hz : z ∈ zs) :
    z ≤ zs.foldl (fun acc z => if z > acc then z else acc) a := by
  induction zs generalizing a with
  | nil => cases hz
  | cons w zs ih =>
    rcases List.mem_cons.mp hz with h | h
    · subst h
      refine le_trans ?_ (foldlMax_init_le zs (if z > a then z else a))
      split <;> omega
    · exact ih _ h

/-- C6: after initial placement (current z-index 0, as for a fresh
notification element) the assigned z-index is strictly greater than every
observed element's computed z-index — it equals the observed maximum,
floored at the sentinel, plus one — and a `setZIndex` re-check (fixed-delay
or mutation-driven, singly or chained) never decreases the z-index. -/
theorem notification_zindex_wins_and_monotone :
    (∀ (zs : List Int) (z : Int), z ∈ zs → z < setZIndex 0 zs) ∧
    (∀ zs : List Int, setZIndex 0 zs = getHighestZIndex zs + 1) ∧
    (∀ (currentZ : Int) (zs : List Int), currentZ ≤ setZIndex currentZ zs) ∧
    (∀ (scans : List (List Int)) (currentZ : Int),
      currentZ ≤ scans.foldl setZIndex currentZ) := by
  have hfloor : ∀ zs : List Int, (2147483640 : Int) ≤ getHighestZIndex zs := by
    intro zs; exact le_max_right _ _
  have hinit : ∀ zs : List Int, setZIndex 0 zs = getHighestZIndex zs + 1 := by
    intro zs
    unfold setZIndex
    have := hfloor zs
    rw [if_pos (by omega)]
  have hmono : ∀ (currentZ : Int) (zs : List Int), currentZ ≤ setZIndex currentZ zs := by
    intro currentZ zs
    simp only [setZIndex]
    split <;> omega
  refine ⟨?_, hinit, hmono, ?_⟩
  · intro zs z hz
    rw [hinit zs]
    have h1 : z ≤ highestObserved zs := foldlMax_mem_le zs 0 z hz
    have h2 : highestObserved zs ≤ getHighestZIndex zs := le_max_left _ _
    omega
  · intro scans
    induction scans with
    | nil => intro c; exact le_refl c
    | cons zs scans ih =>
      intro c
      exact le_trans (hmono c zs) (ih (setZIndex c zs))

/-- C6 witness: a page element at z-index 999999 is strictly beaten at
initial placement. -/
theorem notification_zindex_wins_witness :
    (999999 : Int) < setZIndex 0 [999999] :=
  notification_zindex_wins_and_monotone.1 [999999] 999999 (by decide)

lemma countVotes_eq_zero_of_no_match (candidates : List JStr) (n : JStr)
    (h : ∀ c ∈ candidates, ¬ (n <:+: normalizeBrand c)) :
    countVotes candidates n = 0 := by
  unfold countVotes
  rw [List.filter_eq_nil_iff.mpr]
  · rfl
  · intro c hc
    simp only [decide_eq_true_eq]
    exact h c hc

/-- C7: on an empty candidate list, and on any candidate list in which no
candidate's normalization contains any catalog brand name, the brand vote
returns `none` (in the model `determineBestBrandByVotes` is a total
function, so this outcome is a normal return value, not an exception). -/
theorem brand_vote_none_is_normal :
    (∀ catalog : List BrandRecord, determineBestBrandByVotes catalog [] = none) ∧
    (∀ (catalog : List BrandRecord) (candidates : List JStr),
      (∀ c ∈ candidates, ∀ r ∈ catalog, ¬ (r.name <:+: normalizeBrand c)) →
      determineBestBrandByVotes catalog candidates = none) := by
  constructor
  · intro catalog; rfl
  · intro catalog candidates h
    unfold determineBestBrandByVotes
    by_cases hc : candidates.length = 0
    · rw [if_pos hc]
    · rw [if_neg hc]
      have htal :
          ((catalog.map (fun r => (r.name, countVotes candidates r.name))).filter
            (fun p => decide (0 < p.2))) = [] := by
        apply List.filter_eq_nil_iff.mpr
        intro p hp
        obtain ⟨r, hr, hpr⟩ := List.mem_map.mp hp
        have hz : countVotes candidates r.name = 0 :=
          countVotes_eq_zero_of_no_match candidates r.name
            (fun c hcand => h c hcand r hr)
        subst hpr
        simp [hz]
      simp only [htal]
      rfl

/-- C7 witness: a concrete candidate that matches no catalog brand. -/
theorem brand_vote_none_is_normal_witness :
    determineBestBrandByVotes [⟨"nike".toList, 12⟩] ["Toaster".toList] = none :=
  brand_vote_none_is_normal.2 [⟨"nike".toList, 12⟩] ["Toaster".toList] (by decide)

/-- C8: when the brand-catalog source is unreachable (or its text cannot be
obtained), `loadBrands` completes — it does not throw — with an empty
catalog: the brand map and the name array are both empty, and against the
empty catalog the brand vote can never match any brand, so callers proceed
normally with a `none` vote. -/
theorem loadBrands_failure_degrades_to_empty :
    loadBrands (Except.error ()) = ⟨[], []⟩ ∧
    (∀ candidates : List JStr,
      determineBestBrandByVotes (loadBrands (Except.error ())).entries candidates = none) := by
  constructor
  · rfl
  · intro candidates
    show determineBestBrandByVotes [] candidates = none
    unfold determineBestBrandByVotes
    by_cases hc : candidates.length = 0
    · rw [if_pos hc]
    · rw [if_neg hc]
      rfl

lemma charOfNat_lowered_not_upper (k : Nat) (h1 : 97 ≤ k) (h2 : k ≤ 122) :
    ¬(65 ≤ (Char.ofNat k).toNat ∧ (Char.ofNat k).toNat ≤ 90) := by
  interval_cases k <;> decide

lemma jsToLower_idem (c : Char) : jsToLower (jsToLower c) = jsToLower c := by
  unfold jsToLower
  by_cases h : 65 ≤ c.toNat ∧ c.toNat ≤ 90
  · rw [if_pos h, if_neg (charOfNat_lowered_not_upper (c.toNat + 32) (by omega) (by omega))]
  · rw [if_neg h, if_neg h]

lemma dropWhile_head_not {p : Char → Bool} {l t : JStr} {a : Char}
    (h : l.dropWhile p = a :: t) : p a = false := by
  induction l with
  | nil => cases h
  | cons b l ih =>
    rw [List.dropWhile_cons] at h
    by_cases hb : p b = true
    · rw [if_pos hb] at h
      exact ih h
    · rw [if_neg hb] at h
      injection h with h1 _
      subst h1
      simpa using hb

lemma dropWhile_idem (p : Char → Bool) (l : JStr) :
    (l.dropWhile p).dropWhile p = l.dropWhile p := by
  cases hd : l.dropWhile p with
  | nil => rfl
  | cons a t =>
    have ha := dropWhile_head_not hd
    rw [List.dropWhile_cons, ha]
    simp

lemma getLast?_dropWhile (p : Char → Bool) (l : JStr) (h : l.dropWhile p ≠ []) :
    (l.dropWhile p).getLast? = l.getLast? := by
  conv_rhs => rw [← List.takeWhile_append_dropWhile p l]
  exact (List.getLast?_append_of_ne_nil _ h).symm

lemma mem_jsTrim {c : Char} {l : JStr} (h : c ∈ jsTrim l) : c ∈ l := by
  unfold jsTrim at h
  have h1 := List.mem_reverse.mp h
  have h2 := (List.dropWhile_sublist _).subset h1
  have h3 := List.mem_reverse.mp h2
  exact (List.dropWhile_sublist _).subset h3

lemma jsTrim_idem (l : JStr) : jsTrim (jsTrim l) = jsTrim l := by
  have h1 : (jsTrim l).dropWhile isJsSpace = jsTrim l := by
    cases hBr : jsTrim l with
    | nil => simp
    | cons a t =>
      have ha : isJsSpace a = false := by
        unfold jsTrim at hBr
        have hne : (l.dropWhile isJsSpace).reverse.dropWhile isJsSpace ≠ [] := by
          intro h
          rw [h] at hBr
          simp at hBr
        have e1 : ((l.dropWhile isJsSpace).reverse.dropWhile isJsSpace).getLast? = some a := by
          rw [← List.head?_reverse, hBr]
          rfl
        rw [getLast?_dropWhile _ _ hne, List.getLast?_reverse] at e1
        cases hd : l.dropWhile isJsSpace with
        | nil => rw [hd] at e1; cases e1
        | cons b t2 =>
          rw [hd] at e1
          injection e1 with e3
          subst e3
          exact dropWhile_head_not hd
      rw [List.dropWhile_cons, ha]
      simp
  show ((((jsTrim l).dropWhile isJsSpace).reverse).dropWhile isJsSpace).reverse = jsTrim l
  rw [h1]
  have h2 : (jsTrim l).reverse = (l.dropWhile isJsSpace).reverse.dropWhile isJsSpace := by
    unfold jsTrim
    rw [List.reverse_reverse]
  rw [h2, dropWhile_idem]
  rfl

lemma normalizeBrand_fixes (s : JStr) :
    (normalizeBrand s).map jsToLower = normalizeBrand s ∧
    (normalizeBrand s).filter notTrademark = normalizeBrand s ∧
    jsTrim (normalizeBrand s) = normalizeBrand s := by
  by_cases hs : s = []
  · subst hs
    exact ⟨rfl, rfl, rfl⟩
  · have hval : normalizeBrand s = jsTrim ((s.map jsToLower).filter notTrademark) := by
      unfold normalizeBrand
      rw [if_neg hs]
    have hmem : ∀ c ∈ normalizeBrand s, c ∈ (s.map jsToLower).filter notTrademark := by
      intro c hc
      rw [hval] at hc
      exact mem_jsTrim hc
    refine ⟨?_, ?_, ?_⟩
    · have hfix : ∀ c ∈ normalizeBrand s, jsToLower c = id c := by
        intro c hc
        obtain ⟨x, _, rfl⟩ := List.mem_map.mp (List.mem_of_mem_filter (hmem c hc))
        exact jsToLower_idem x
      rw [List.map_congr_left hfix, List.map_id]
    · exact List.filter_eq_self.mpr (fun c hc => List.of_mem_filter (hmem c hc))
    · rw [hval, jsTrim_idem]

/-- C9: brand-name normalization is idempotent — applying `normalizeBrand`
(lower-case, strip the ® ™ © glyphs, trim surrounding whitespace) to an
already-normalized string changes nothing. -/
theorem normalizeBrand_idempotent :
    ∀ s : JStr, normalizeBrand (normalizeBrand s) = normalizeBrand s := by
  intro s
  obtain ⟨hmap, hfil, htrim⟩ := normalizeBrand_fixes s
  by_cases ht : normalizeBrand s = []
  · rw [ht]
    rfl
  · conv_lhs => rw [normalizeBrand]
    rw [if_neg ht, hmap, hfil, htrim]

lemma voteLoop_skip (l : List (JStr × Nat)) (m : Nat) (w : Option JStr)
    (h : ∀ p ∈ l, p.2 ≤ m) : voteLoop l m w = w := by
  induction l generalizing m w with
  | nil => rfl
  | cons q l ih =>
    have hq := h q (List.mem_cons_self q l)
    unfold voteLoop
    rw [if_neg (by omega)]
    exact ih m w (fun p hp => h p (List.mem_cons_of_mem q hp))

lemma voteLoop_first_max (l2 : List (JStr × Nat)) (bn : JStr) (vb : Nat)
    (h2 : ∀ p ∈ l2, p.2 ≤ vb) :
    ∀ (l1 : List (JStr × Nat)) (m : Nat) (w : Option JStr),
      (∀ p ∈ l1, p.2 < vb) → m < vb →
      voteLoop (l1 ++ (bn, vb) :: l2) m w = some bn := by
  intro l1
  induction l1 with
  | nil =>
    intro m w _ hm
    simp only [List.nil_append]
    unfold voteLoop
    rw [if_pos hm]
    exact voteLoop_skip l2 vb (some bn) (fun p hp => h2 p hp)
  | cons q l1 ih =>
    intro m w h1 hm
    simp only [List.cons_append]
    unfold voteLoop
    by_cases hq : m < q.2
    · rw [if_pos hq]
      exact ih q.2 (some q.1) (fun p hp => h1 p (List.mem_cons_of_mem q hp))
        (h1 q (List.mem_cons_self q l1))
    · rw [if_neg hq]
      exact ih m w (fun p hp => h1 p (List.mem_cons_of_mem q hp)) hm

lemma find?_name_first (l1 l2 : List BrandRecord) (b : BrandRecord)
    (h : ∀ r ∈ l1, r.name ≠ b.name) :
    (l1 ++ b :: l2).find? (fun r => r.name == b.name) = some b := by
  induction l1 with
  | nil =>
    simp only [List.nil_append]
    exact List.find?_cons_of_pos _ (by simp)
  | cons r l1 ih =>
    simp only [List.cons_append]
    rw [List.find?_cons_of_neg]
    · exact ih (fun x hx => h x (List.mem_cons_of_mem r hx))
    · simp only [beq_iff_eq]
      simpa using h r (List.mem_cons_self r l1)

lemma names_split_facts (l1 l2 : List BrandRecord) (b : BrandRecord)
    (hnd : ((l1 ++ b :: l2).map (fun r => r.name)).Nodup) :
    (∀ r ∈ l1, r.name ≠ b.name) ∧ (∀ r ∈ l2, r.name ≠ b.name) := by
  rw [List.map_append, List.map_cons, List.nodup_append] at hnd
  obtain ⟨_, hnd2, hdisj⟩ := hnd
  constructor
  · intro r hr heq
    exact hdisj (List.mem_map.mpr ⟨r, hr, heq⟩) (List.mem_cons_self _ _)
  · intro r hr heq
    have hmem : b.name ∈ l2.map (fun r => r.name) := List.mem_map.mpr ⟨r, hr, heq⟩
    exact (List.nodup_cons.mp hnd2).1 hmem

lemma candidates_ne_nil_of_votes {candidates : List JStr} {n : JStr}
    (h : 0 < countVotes candidates n) : candidates.length ≠ 0 := by
  intro h0
  rw [List.length_eq_zero] at h0
  subst h0
  simp [countVotes] at h

lemma vote_split_eval (l1 l2 : List BrandRecord) (b : BrandRecord) (candidates : List JStr)
    (hnd : (((l1 ++ b :: l2).map (fun r => r.name))).Nodup)
    (hpos : 0 < countVotes candidates b.name)
    (hlt : ∀ r ∈ l1, countVotes candidates r.name < countVotes candidates b.name)
    (hle : ∀ r ∈ l2, countVotes candidates r.name ≤ countVotes candidates b.name) :
    determineBestBrandByVotes (l1 ++ b :: l2) candidates = some b := by
  obtain ⟨hname1, _⟩ := names_split_facts l1 l2 b hnd
  unfold determineBestBrandByVotes
  rw [if_neg (candidates_ne_nil_of_votes hpos)]
  simp only [List.map_append, List.map_cons, List.filter_append, List.filter_cons]
  have hbkeep : (decide (0 < (b.name, countVotes candidates b.name).2)) = true := by
    simpa using hpos
  rw [hbkeep]
  simp only [if_true]
  have hloop :
      voteLoop
        ((List.filter (fun p => decide (0 < p.2))
            (l1.map (fun r => (r.name, countVotes candidates r.name)))) ++
          (b.name, countVotes candidates b.name) ::
            (List.filter (fun p => decide (0 < p.2))
              (l2.map (fun r => (r.name, countVotes candidates r.name)))))
        0 none = some b.name := by
    apply voteLoop_first_max
    · intro p hp
      obtain ⟨r, hr, hpr⟩ := List.mem_map.mp (List.mem_of_mem_filter hp)
      subst hpr
      exact hle r hr
    · intro p hp
      obtain ⟨r, hr, hpr⟩ := List.mem_map.mp (List.mem_of_mem_filter hp)
      subst hpr
      exact hlt r hr
    · exact hpos
  rw [if_neg (by simp), hloop]
  exact find?_name_first l1 l2 b hname1

/-- C1: the brand vote counts, for each catalog brand name, how many
candidates' normalizations contain that name as a substring, and whenever
one catalog brand's count is strictly highest (and positive) it returns
that brand's record from the catalog map. -/
theorem brand_vote_counts_and_strict_winner :
    (∀ (candidates : List JStr) (n : JStr),
      countVotes candidates n =
        (candidates.filter (fun c => decide (n <:+: normalizeBrand c))).length) ∧
    (∀ (catalog : List BrandRecord) (candidates : List JStr) (b : BrandRecord),
      (catalog.map (fun r => r.name)).Nodup →
      b ∈ catalog →
      0 < countVotes candidates b.name →
      (∀ r ∈ catalog, r.name ≠ b.name →
        countVotes candidates r.name < countVotes candidates b.name) →
      determineBestBrandByVotes catalog candidates = some b) := by
  constructor
  · intro candidates n
    rfl
  · intro catalog candidates b hnd hb hpos hmax
    obtain ⟨l1, l2, rfl⟩ := List.append_of_mem hb
    obtain ⟨hname1, hname2⟩ := names_split_facts l1 l2 b hnd
    refine vote_split_eval l1 l2 b candidates hnd hpos ?_ ?_
    · intro r hr
      exact hmax r (List.mem_append_left _ hr) (hname1 r hr)
    · intro r hr
      exact le_of_lt
        (hmax r (List.mem_append_right _ (List.mem_cons_of_mem b hr)) (hname2 r hr))

/-- C1 witness: the spec's example — candidates
`["Nike Air", "nike", "NIKE®", "Adidas"]` against a catalog containing
nike and adidas: nike wins with 3 matches against 1. -/
theorem brand_vote_counts_and_strict_winner_witness :
    countVotes ["Nike Air".toList, "nike".toList, "NIKE®".toList, "Adidas".toList]
      "nike".toList = 3 ∧
    countVotes ["Nike Air".toList, "nike".toList, "NIKE®".toList, "Adidas".toList]
      "adidas".toList = 1 ∧
    determineBestBrandByVotes [⟨"nike".toList, 12⟩, ⟨"adidas".toList, 11⟩]
      ["Nike Air".toList, "nike".toList, "NIKE®".toList, "Adidas".toList] =
      some ⟨"nike".toList, 12⟩ :=
  ⟨by decide, by decide,
   brand_vote_counts_and_strict_winner.2
     [⟨"nike".toList, 12⟩, ⟨"adidas".toList, 11⟩]
     ["Nike Air".toList, "nike".toList, "NIKE®".toList, "Adidas".toList]
     ⟨"nike".toList, 12⟩ (by decide) (by decide) (by decide) (by decide)⟩

/-- C10: tie-breaking is deterministic by catalog order — whenever the
catalog splits as `l1 ++ b :: l2` with every brand before `b` scoring
strictly fewer votes and every brand after `b` scoring at most as many
(so in particular when later brands tie with `b`), the vote returns `b`:
the strictly-greater comparison never replaces the earlier leader, and the
winner is a function of the candidates and the catalog entry order. -/
theorem brand_vote_tie_prefers_catalog_order :
    ∀ (l1 l2 : List BrandRecord) (b : BrandRecord) (candidates : List JStr),
      (((l1 ++ b :: l2).map (fun r => r.name))).Nodup →
      0 < countVotes candidates b.name →
      (∀ r ∈ l1, countVotes candidates r.name < countVotes candidates b.name) →
      (∀ r ∈ l2, countVotes candidates r.name ≤ countVotes candidates b.name) →
      determineBestBrandByVotes (l1 ++ b :: l2) candidates = some b := by
  intro l1 l2 b candidates hnd hpos hlt hle
  exact vote_split_eval l1 l2 b candidates hnd hpos hlt hle

/-- C10 witness: with the static catalog, one candidate mentioning both
nike and adidas produces a 1–1 tie, and nike — first in catalog order —
wins. -/
theorem brand_vote_tie_prefers_catalog_order_witness :
    determineBestBrandByVotes SUPPORTED_BRANDS_MAP ["nike adidas gear".toList] =
      some ⟨"nike".toList, 12⟩ := by
  have h := brand_vote_tie_prefers_catalog_order
    [⟨"ruggable".toList, 10⟩, ⟨"creed".toList, 15⟩]
    [⟨"adidas".toList, 11⟩, ⟨"ugg".toList, 9⟩, ⟨"lululemon".toList, 8⟩,
     ⟨"levis".toList, 7⟩, ⟨"samsung".toList, 18⟩, ⟨"apple".toList, 5⟩,
     ⟨"sony".toList, 14⟩, ⟨"lego".toList, 6⟩, ⟨"patagonia".toList, 13⟩,
     ⟨"the north face".toList, 10⟩, ⟨"coach".toList, 20⟩,
     ⟨"michael kors".toList, 22⟩, ⟨"kate spade".toList, 25⟩,
     ⟨"tory burch".toList, 23⟩, ⟨"gucci".toList, 30⟩,
     ⟨"louis vuitton".toList, 4⟩, ⟨"prada".toList, 7⟩, ⟨"chanel".toList, 5⟩]
    ⟨"nike".toList, 12⟩ ["nike adidas gear".toList]
    (by decide) (by decide) (by decide) (by decide)
  have hcat : SUPPORTED_BRANDS_MAP =
      [⟨"ruggable".toList, 10⟩, ⟨"creed".toList, 15⟩] ++
        (⟨"nike".toList, 12⟩ : BrandRecord) ::
          [⟨"adidas".toList, 11⟩, ⟨"ugg".toList, 9⟩, ⟨"lululemon".toList, 8⟩,
           ⟨"levis".toList, 7⟩, ⟨"samsung".toList, 18⟩, ⟨"apple".toList, 5⟩,
           ⟨"sony".toList, 14⟩, ⟨"lego".toList, 6⟩, ⟨"patagonia".toList, 13⟩,
           ⟨"the north face".toList, 10⟩, ⟨"coach".toList, 20⟩,
           ⟨"michael kors".toList, 22⟩, ⟨"kate spade".toList, 25⟩,
           ⟨"tory burch".toList, 23⟩, ⟨"gucci".toList, 30⟩,
           ⟨"louis vuitton".toList, 4⟩, ⟨"prada".toList, 7⟩, ⟨"chanel".toList, 5⟩] := by
    decide
  rw [hcat]
  exact h

lemma wordCharAt_eq_false_of_le {s : JStr} {j : Nat} (h : s.length ≤ j) :
    wordCharAt s j = false := by
  unfold wordCharAt
  rw [List.get?_eq_none.mpr h]

lemma wordMatchAt_le_length {n s : JStr} {i : Nat} (h : wordMatchAt n s i = true) :
    i ≤ s.length := by
  by_contra hgt
  push_neg at hgt
  unfold wordMatchAt at h
  simp only [Bool.and_eq_true, decide_eq_true_eq] at h
  obtain ⟨⟨hpre, hb1⟩, _⟩ := h
  have hdrop : s.drop i = [] := List.drop_eq_nil_of_le (le_of_lt hgt)
  rw [hdrop, List.prefix_nil] at hpre
  unfold wordBoundaryAt at hb1
  have h0 : wordCharAt s i = false := wordCharAt_eq_false_of_le (by omega)
  have h1 : (if i = 0 then false else wordCharAt s (i - 1)) = false := by
    by_cases hi : i = 0
    · rw [if_pos hi]
    · rw [if_neg hi]
      exact wordCharAt_eq_false_of_le (by omega)
  rw [h0, h1] at hb1
  cases hb1

lemma findWholeWord_isSome_of_match {n s : JStr}
    (h : ∃ i, wordMatchAt n s i = true) : ∃ j, findWholeWord n s = some j := by
  obtain ⟨i, hi⟩ := h
  have hle := wordMatchAt_le_length hi
  have hsome : (findWholeWord n s).isSome := by
    unfold findWholeWord
    rw [List.find?_isSome]
    exact ⟨i, List.mem_range.mpr (by omega), hi⟩
  exact Option.isSome_iff_exists.mp hsome

lemma titleCandidate_of_match (T : JStr) (n : JStr)
    (hfix : normalizeBrand n = n)
    (hmatch : ∃ i, wordMatchAt n (T.map jsToLower) i = true) :
    ∃ c, titleCandidateFor T n = some c ∧ normalizeBrand c = n := by
  obtain ⟨j, hj⟩ := findWholeWord_isSome_of_match hmatch
  have hmj : wordMatchAt n (T.map jsToLower) j = true := by
    unfold findWholeWord at hj
    exact List.find?_some hj
  have hpre : n <+: (T.map jsToLower).drop j := by
    unfold wordMatchAt at hmj
    simp only [Bool.and_eq_true, decide_eq_true_eq] at hmj
    exact hmj.1.1
  obtain ⟨rest, hrest⟩ := hpre
  have hlow : ((T.drop j).take n.length).map jsToLower = n := by
    rw [List.map_take, List.map_drop, ← hrest, List.take_left]
  refine ⟨(T.drop j).take n.length, ?_, ?_⟩
  · unfold titleCandidateFor
    rw [hj]
  · by_cases hc : (T.drop j).take n.length = []
    · rw [hc] at hlow ⊢
      simp only [List.map_nil] at hlow
      rw [← hlow]
      rfl
    · unfold normalizeBrand
      rw [if_neg hc, hlow]
      have hf := normalizeBrand_fixes n
      rw [hfix] at hf
      obtain ⟨_, hfil, htrim⟩ := hf
      rw [hfil, htrim]

lemma countVotes_pos_of_mem {cands : List JStr} {c n : JStr}
    (hc : c ∈ cands) (hn : n <:+: normalizeBrand c) : 0 < countVotes cands n := by
  have hmem : c ∈ cands.filter (fun c => decide (n <:+: normalizeBrand c)) :=
    List.mem_filter.mpr ⟨hc, by simpa using hn⟩
  unfold countVotes
  exact List.length_pos.mpr (List.ne_nil_of_mem hmem)

lemma title_ne_nil_of_match {n T : JStr}
    (h : ∃ i, wordMatchAt n (T.map jsToLower) i = true) : T ≠ [] := by
  rintro rfl
  obtain ⟨i, hi⟩ := h
  simp [wordMatchAt, wordBoundaryAt, wordCharAt] at hi

/-- C3 counterexample: the claim fails as stated.  `"Levi®s"` is a
case/punctuation variant whose normalization is exactly the catalog name
`"levis"`, yet a title whose only brand evidence is that variant yields no
title candidate at all — the regex `\blevis\b` needs the name contiguous in
the lowercased title, and the ® sits inside it — so the detection result is
`none`, not the levis record. -/
theorem title_variant_normalizes_but_loses :
    normalizeBrand "Levi®s".toList = "levis".toList ∧
    titleCandidates ["levis".toList] "New Levi®s 501 Jeans".toList = [] ∧
    determineBestBrandByVotes [⟨"levis".toList, 7⟩]
      (titleCandidates ["levis".toList] "New Levi®s 501 Jeans".toList) = none := by
  refine ⟨by decide, by decide, by decide⟩

/-- C3 (amended): for every catalog brand `b` (with a normalized name) and
every title in whose lowercased text `b`'s name occurs as a whole word —
which covers every case variant, and variants whose punctuation or
trademark decoration sits adjacent to the name rather than inside it — if
no other catalog brand collects any vote from the title candidates, the
detection returns `b`'s record. -/
theorem title_whole_word_variant_wins :
    ∀ (catalog : List BrandRecord) (b : BrandRecord) (T : JStr),
      (catalog.map (fun r => r.name)).Nodup →
      b ∈ catalog →
      normalizeBrand b.name = b.name →
      (∃ i, wordMatchAt b.name (T.map jsToLower) i = true) →
      (∀ r ∈ catalog, r.name ≠ b.name →
        countVotes (titleCandidates (catalog.map (fun r => r.name)) T) r.name = 0) →
      determineBestBrandByVotes catalog
        (titleCandidates (catalog.map (fun r => r.name)) T) = some b := by
  intro catalog b T hnd hb hfix hmatch hothers
  obtain ⟨l1, l2, rfl⟩ := List.append_of_mem hb
  obtain ⟨hname1, hname2⟩ := names_split_facts l1 l2 b hnd
  obtain ⟨c, hcf, hcn⟩ := titleCandidate_of_match T b.name hfix hmatch
  have hTne := title_ne_nil_of_match hmatch
  have hbmem : b ∈ l1 ++ b :: l2 := List.mem_append_right _ (List.mem_cons_self b l2)
  have hcmem : c ∈ titleCandidates ((l1 ++ b :: l2).map (fun r => r.name)) T := by
    unfold titleCandidates
    rw [if_neg hTne]
    exact List.mem_filterMap.mpr ⟨b.name, List.mem_map.mpr ⟨b, hbmem, rfl⟩, hcf⟩
  have hpos :
      0 < countVotes (titleCandidates ((l1 ++ b :: l2).map (fun r => r.name)) T) b.name := by
    apply countVotes_pos_of_mem hcmem
    rw [hcn]
  apply vote_split_eval l1 l2 b _ hnd hpos
  · intro r hr
    rw [hothers r (List.mem_append_left _ hr) (hname1 r hr)]
    exact hpos
  · intro r hr
    rw [hothers r (List.mem_append_right _ (List.mem_cons_of_mem b hr)) (hname2 r hr)]
    exact Nat.zero_le _

/-- C3 witness: the spec's example — title `"New Levis 501 Jeans"` with
catalog entry `{levis, 7}` yields the levis record. -/
theorem title_whole_word_variant_wins_witness :
    determineBestBrandByVotes [⟨"levis".toList, 7⟩]
      (titleCandidates
        (([⟨"levis".toList, 7⟩] : List BrandRecord).map (fun r => r.name))
        "New Levis 501 Jeans".toList) =
      some ⟨"levis".toList, 7⟩ :=
  title_whole_word_variant_wins [⟨"levis".toList, 7⟩] ⟨"levis".toList, 7⟩
    "New Levis 501 Jeans".toList (by decide) (by decide) (by decide)
    ⟨4, by decide⟩ (by decide)

/-- C4 counterexample: with the repository's own static catalog, the brand
name `"ugg"` occurs in the title `"Ruggable Washable Rug"` only inside the
longer word `"Ruggable"` (it is a substring of the lowercased title, but no
position is a whole-word match), yet `"ugg"` still receives one title vote,
because the candidate `"Ruggable"` captured for the brand `"ruggable"`
normalizes to a string containing `"ugg"`. -/
theorem substring_brand_still_voted :
    ("ugg".toList <:+: "Ruggable Washable Rug".toList.map jsToLower) ∧
    (∀ i, i ≤ ("Ruggable Washable Rug".toList.map jsToLower).length →
      wordMatchAt "ugg".toList ("Ruggable Washable Rug".toList.map jsToLower) i = false) ∧
    countVotes (titleCandidates SUPPORTED_BRANDS_ARRAY "Ruggable Washable Rug".toList)
      "ugg".toList = 1 := by
  refine ⟨by decide, by decide, by decide⟩

/-- C4 (amended): the title strategy itself is whole-word anchored: a
catalog brand name with no whole-word occurrence in the lowercased title
produces no candidate of its own (so with `"levis"` as the only catalog
entry, the title `"Levinson & Co Watches"` yields no candidate, no vote and
no winner); the brand can, however, still be voted for by a candidate that
another catalog brand's whole-word match captured, when that candidate's
normalization contains it. -/
theorem title_strategy_whole_word_anchored :
    (∀ (n T : JStr),
      (∀ i, i ≤ (T.map jsToLower).length → wordMatchAt n (T.map jsToLower) i = false) →
      titleCandidateFor T n = none) ∧
    titleCandidates ["levis".toList] "Levinson & Co Watches".toList = [] ∧
    countVotes (titleCandidates ["levis".toList] "Levinson & Co Watches".toList)
      "levis".toList = 0 ∧
    determineBestBrandByVotes [⟨"levis".toList, 7⟩]
      (titleCandidates ["levis".toList] "Levinson & Co Watches".toList) = none := by
  refine ⟨?_, by decide, by decide, by decide⟩
  intro n T h
  unfold titleCandidateFor
  have hnone : findWholeWord n (T.map jsToLower) = none := by
    unfold findWholeWord
    rw [List.find?_eq_none]
    intro i hi
    have hlt := List.mem_range.mp hi
    rw [h i (by omega)]
    simp
  rw [hnone]

/-- C4 witness: the Levinson title produces no candidate for levis. -/
theorem title_strategy_whole_word_anchored_witness :
    titleCandidateFor "Levinson & Co Watches".toList "levis".toList = none :=
  title_strategy_whole_word_anchored.1 "levis".toList
    "Levinson & Co Watches".toList (by decide)
